import Mathlib

/-!
Verification of the `BloomFilter` class in `src/main.js`.

The JavaScript source is embedded shallowly:

* JavaScript numbers that the program keeps in 32-bit integer range are
  modelled as `Int`; the `ToInt32` coercion that `<<`, `&` and `^` perform
  is the explicit wrap `jsToInt32`.
* Strings are modelled as their sequence of UTF-16 code units
  (`item.charCodeAt(i)`), i.e. as `List Nat`.
* The `bitArray` field (a JS array of the numbers 0 and 1) is a `List Int`;
  the in-bounds write `a[i] = 1` is `List.set`, and the read `a[i]`
  compared with `=== 0` is `a[i]?` compared with `some 0` (a JS
  out-of-range read yields `undefined`, which is not `=== 0`, so the
  comparison fails exactly when the optional read is not `some 0`).
* The constructor `new BloomFilter(size, numHashes)` can throw: for an
  integer argument, `new Array(size)` throws a `RangeError` unless
  `0 ≤ size < 2^32`.  It is therefore embedded as an `Except`-valued
  function.
* JS `%` on integers is the truncated remainder `Int.tmod` (sign of the
  dividend), and `Math.abs` is `Int.natAbs`.
-/

/-- JavaScript `ToInt32`: wrap an integer to two's-complement 32-bit range
`[-2^31, 2^31)`.  This is what `x & x` in the source (`hash = hash & hash`)
computes on an integral number, and what `<<` and `^` apply to their
operands. -/
def jsToInt32 (n : Int) : Int :=
  (n + 2147483648) % 4294967296 - 2147483648

/-- The 32-bit pattern (a natural number below `2^32`) of the two's-complement
value of `n`, used to evaluate JS bitwise operators. -/
def toUInt32bits (n : Int) : Nat :=
  (n % 4294967296).toNat

/-- JavaScript `a ^ b` on integral numbers: both operands are coerced with
`ToInt32`, their 32-bit patterns are XORed, and the result is read back as a
signed 32-bit integer. -/
def jsXor (a b : Int) : Int :=
  jsToInt32 (Int.ofNat (Nat.xor (toUInt32bits a) (toUInt32bits b)))

/-- One iteration of the character loop in `BloomFilter._hash`:
`hash = (hash << 5) - hash + char; hash = hash & hash;`.
`hash << 5` coerces `hash` with `ToInt32`, multiplies by 32 and wraps; the
subtraction and addition are exact (the operands are small enough that the
double-precision arithmetic of JS is exact); `hash & hash` wraps the result
back to a signed 32-bit integer. -/
def hashStep (hash : Int) (char : Nat) : Int :=
  jsToInt32 (jsToInt32 (jsToInt32 hash * 32) - hash + (char : Int))

/-- The running hash that the loop of `BloomFilter._hash` computes over the
code units of `item`, starting from `let hash = 0`. -/
def stringHash (item : List Nat) : Int :=
  item.foldl hashStep 0

/-- The reference hash update written in the specification (§4.1, step 1):
`hash = (hash * 31 + codepoint)`, truncated/wrapped to 32-bit signed integer
semantics at every step.  This definition follows the specification text and
is compared with `hashStep`, which follows the source. -/
def specHashStep (hash : Int) (char : Nat) : Int :=
  jsToInt32 (hash * 31 + (char : Int))

/-- The specification's running hash (§4.1, step 1): fold `specHashStep`
over the item's character sequence starting from 0.  Compared with
`stringHash`, which follows the source. -/
def specStringHash (item : List Nat) : Int :=
  item.foldl specHashStep 0

/-- The error a failed `new BloomFilter(...)` call throws:
`new Array(size)` raises `RangeError` for an invalid length. -/
inductive JsError where
  | rangeError
deriving DecidableEq

/-- The state of a `BloomFilter` instance: the fields `this.size`,
`this.numHashes` and `this.bitArray` set up by the constructor. -/
@[ext]
structure BloomFilter where
  size : Int
  numHashes : Int
  bitArray : List Int
deriving DecidableEq

/-- `new BloomFilter(size, numHashes)`: stores both parameters unchecked and
runs `this.bitArray = new Array(size).fill(0)`.  For an integer `size`,
`new Array(size)` throws a `RangeError` unless `0 ≤ size < 2^32`; otherwise
the result is an array of `size` zeros.  No other validation happens. -/
def BloomFilter.construct (size numHashes : Int) : Except JsError BloomFilter :=
  if 0 ≤ size ∧ size < 4294967296 then
    Except.ok ⟨size, numHashes, List.replicate size.toNat 0⟩
  else
    Except.error JsError.rangeError

/-- `BloomFilter._hash(item, seed)`: the running hash of `item`, XORed with
`seed` (`hash = hash ^ seed`), reduced by `Math.abs(hash % this.size)`.
JS `%` is the truncated remainder `Int.tmod` and `Math.abs` is the absolute
value.  (For `this.size = 0`, JS produces `NaN` here; every theorem about
this function assumes `0 < size`, matching the spec's precondition.) -/
def BloomFilter._hash (bf : BloomFilter) (item : List Nat) (seed : Int) : Int :=
  ((Int.natAbs (Int.tmod (jsXor (stringHash item) seed) bf.size) : Nat) : Int)

/-- The body of the loop in `BloomFilter.add`, for loop counter `i`:
`const index = this._hash(item, i); this.bitArray[index] = 1;`.
The index is computed from the *current* state, exactly as in the source. -/
def BloomFilter.addStep (item : List Nat) (bf : BloomFilter) (i : Nat) : BloomFilter :=
  ⟨bf.size, bf.numHashes, bf.bitArray.set (bf._hash item (Int.ofNat i)).toNat 1⟩

/-- `BloomFilter.add(item)`: run `addStep` for `i = 0, 1, ..., numHashes-1`
(the loop `for (let i = 0; i < this.numHashes; i++)`; `this.numHashes` is
never written, so the iteration count is fixed up front). -/
def BloomFilter.add (bf : BloomFilter) (item : List Nat) : BloomFilter :=
  (List.range bf.numHashes.toNat).foldl (BloomFilter.addStep item) bf

/-- The loop of `BloomFilter.contains`, as an explicit state-passing
translation over the remaining loop counters: each iteration computes
`index = this._hash(item, i)` and returns `false` as soon as
`this.bitArray[index] === 0`; falling off the loop returns `true`.  The
body contains no assignment, so the state component is the receiver it was
entered with. -/
def BloomFilter.containsLoop (bf : BloomFilter) (item : List Nat) :
    List Nat → BloomFilter × Bool
  | [] => (bf, true)
  | i :: rest =>
    if bf.bitArray[(bf._hash item (Int.ofNat i)).toNat]? = some 0 then
      (bf, false)
    else
      bf.containsLoop item rest

/-- A call `bf.contains(item)`: the final state of the receiver paired with
the returned boolean. -/
def BloomFilter.containsCall (bf : BloomFilter) (item : List Nat) :
    BloomFilter × Bool :=
  bf.containsLoop item (List.range bf.numHashes.toNat)

/-- The value returned by `bf.contains(item)`. -/
def BloomFilter.contains (bf : BloomFilter) (item : List Nat) : Bool :=
  (bf.containsCall item).2

/-- The list of bit-array indices that `add`/`contains` derive from `item`
on a filter with the parameters of `bf`: `_hash(item, i)` for
`i = 0, ..., numHashes-1`. -/
def BloomFilter.hashIndices (bf : BloomFilter) (item : List Nat) : List Nat :=
  (List.range bf.numHashes.toNat).map (fun i => (bf._hash item (Int.ofNat i)).toNat)

/-- Set every index of `I` in `arr` to `1` (left to right). -/
def setOnes (arr : List Int) : List Nat → List Int
  | [] => arr
  | i :: rest => setOnes (arr.set i 1) rest

/-- A sequence of `add` calls, oldest first. -/
def BloomFilter.addAll (bf : BloomFilter) (items : List (List Nat)) : BloomFilter :=
  items.foldl BloomFilter.add bf

/-! ### Basic lemmas about the embedding -/

/-- The source's per-character update agrees with the specification's
reference update on every accumulator value (in particular on every 32-bit
one, which is the only kind the loop produces). -/
theorem hashStep_eq_specHashStep (hash : Int) (char : Nat) :
    hashStep hash char = specHashStep hash char := by
  unfold hashStep specHashStep jsToInt32
  omega

theorem stringHash_eq_specStringHash (item : List Nat) :
    stringHash item = specStringHash item := by
  unfold stringHash specStringHash
  rw [funext fun hash => funext fun char => hashStep_eq_specHashStep hash char]

/-- The absolute value of a truncated remainder is the remainder of the
absolute values (immediate from the case definition of `Int.tmod`). -/
theorem natAbs_tmod (a b : Int) : (Int.tmod a b).natAbs = a.natAbs % b.natAbs := by
  cases a <;> cases b <;>
    simp only [Int.tmod, Int.natAbs_neg, Int.natAbs_ofNat, Int.natAbs_negSucc,
      Nat.succ_eq_add_one] <;> rfl

/-- `_hash` reads only the `size` field of the receiver. -/
theorem BloomFilter.hash_congr (bf bf' : BloomFilter) (item : List Nat) (seed : Int)
    (h : bf.size = bf'.size) : bf._hash item seed = bf'._hash item seed := by
  unfold BloomFilter._hash
  rw [h]

/-- `hashIndices` reads only the `size` and `numHashes` fields. -/
theorem BloomFilter.hashIndices_congr (bf bf' : BloomFilter) (item : List Nat)
    (hs : bf.size = bf'.size) (hk : bf.numHashes = bf'.numHashes) :
    bf.hashIndices item = bf'.hashIndices item := by
  unfold BloomFilter.hashIndices
  rw [hk, funext fun i => congrArg Int.toNat (bf.hash_congr bf' item (Int.ofNat i) hs)]

theorem BloomFilter.addStep_size (item : List Nat) (bf : BloomFilter) (i : Nat) :
    (bf.addStep item i).size = bf.size ∧ (bf.addStep item i).numHashes = bf.numHashes :=
  ⟨rfl, rfl⟩

/-- Unrolling the `add` loop over an arbitrary seed list: the parameters
never change, and the bit array ends up with all derived indices set. -/
theorem foldl_addStep_eq (item : List Nat) (l : List Nat) (bf : BloomFilter) :
    l.foldl (BloomFilter.addStep item) bf =
      ⟨bf.size, bf.numHashes,
        setOnes bf.bitArray (l.map fun i => (bf._hash item (Int.ofNat i)).toNat)⟩ := by
  induction l generalizing bf with
  | nil => simp [setOnes]
  | cons i rest ih =>
    rw [List.foldl_cons, ih]
    have hh : (fun j : Nat => ((bf.addStep item i)._hash item (Int.ofNat j)).toNat)
        = fun j : Nat => (bf._hash item (Int.ofNat j)).toNat :=
      funext fun j =>
        congrArg Int.toNat ((bf.addStep item i).hash_congr bf item (Int.ofNat j) rfl)
    rw [hh]
    simp only [List.map_cons, BloomFilter.addStep, setOnes]

/-- Normal form of `add`: it sets exactly the indices `hashIndices item`
to 1 and leaves the parameters alone. -/
theorem BloomFilter.add_eq (bf : BloomFilter) (item : List Nat) :
    bf.add item = ⟨bf.size, bf.numHashes, setOnes bf.bitArray (bf.hashIndices item)⟩ := by
  rw [BloomFilter.add, foldl_addStep_eq, BloomFilter.hashIndices]

theorem setOnes_length (I : List Nat) (arr : List Int) :
    (setOnes arr I).length = arr.length := by
  induction I generalizing arr with
  | nil => rfl
  | cons i rest ih => rw [setOnes, ih, List.length_set]

/-- Pointwise description of `setOnes`: an index of `I` that is in range
reads 1; every other position is untouched. -/
theorem setOnes_getElem? (I : List Nat) (arr : List Int) (n : Nat) :
    (setOnes arr I)[n]? = if n ∈ I ∧ n < arr.length then some 1 else arr[n]? := by
  induction I generalizing arr with
  | nil => simp [setOnes]
  | cons i rest ih =>
    rw [setOnes, ih, List.length_set]
    by_cases h1 : n < arr.length
    · by_cases h2 : n ∈ rest
      · simp [h1, h2]
      · by_cases h3 : n = i
        · subst h3
          simp [h1, h2, List.getElem?_set_self h1]
        · simp [h1, h2, h3, List.getElem?_set_ne (Ne.symm h3)]
    · have hl : (arr.set i 1)[n]? = none :=
        List.getElem?_eq_none (by rw [List.length_set]; omega)
      have hr : arr[n]? = none := List.getElem?_eq_none (by omega)
      simp [h1, hl, hr]

/-- Bits only move upward: a position reading 1 still reads 1 after any
`setOnes`. -/
theorem setOnes_mono (I : List Nat) (arr : List Int) (n : Nat)
    (h : arr[n]? = some 1) : (setOnes arr I)[n]? = some 1 := by
  rw [setOnes_getElem?]
  by_cases hc : n ∈ I ∧ n < arr.length
  · simp [hc]
  · simp [hc, h]

/-- An index of `I` that is in range reads 1 after `setOnes`. -/
theorem setOnes_sets (I : List Nat) (arr : List Int) (n : Nat)
    (hn : n ∈ I) (hl : n < arr.length) : (setOnes arr I)[n]? = some 1 := by
  rw [setOnes_getElem?]
  simp [hn, hl]

theorem BloomFilter.add_size (bf : BloomFilter) (item : List Nat) :
    (bf.add item).size = bf.size ∧ (bf.add item).numHashes = bf.numHashes := by
  rw [bf.add_eq item]
  exact ⟨rfl, rfl⟩

theorem BloomFilter.add_length (bf : BloomFilter) (item : List Nat) :
    (bf.add item).bitArray.length = bf.bitArray.length := by
  rw [bf.add_eq item]
  exact setOnes_length _ _

theorem BloomFilter.addAll_cons (bf : BloomFilter) (x : List Nat)
    (rest : List (List Nat)) : bf.addAll (x :: rest) = (bf.add x).addAll rest :=
  rfl

theorem BloomFilter.addAll_size (bf : BloomFilter) (items : List (List Nat)) :
    (bf.addAll items).size = bf.size ∧ (bf.addAll items).numHashes = bf.numHashes ∧
      (bf.addAll items).bitArray.length = bf.bitArray.length := by
  induction items generalizing bf with
  | nil => exact ⟨rfl, rfl, rfl⟩
  | cons x rest ih =>
    rw [BloomFilter.addAll_cons]
    obtain ⟨h1, h2, h3⟩ := ih (bf.add x)
    obtain ⟨g1, g2⟩ := bf.add_size x
    exact ⟨h1.trans g1, h2.trans g2, h3.trans (bf.add_length x)⟩

/-- The index bound, as a helper: on a filter of positive size the derived
index is a natural number below `size`. -/
theorem BloomFilter.hash_lt (bf : BloomFilter) (item : List Nat) (seed : Int)
    (h : 0 < bf.size) : bf._hash item seed < bf.size := by
  unfold BloomFilter._hash
  have h1 : (Int.tmod (jsXor (stringHash item) seed) bf.size).natAbs
      < bf.size.natAbs := by
    rw [natAbs_tmod]
    exact Nat.mod_lt _ (by omega)
  have h2 : (bf.size.natAbs : Int) = bf.size := Int.natAbs_of_nonneg (le_of_lt h)
  omega

theorem BloomFilter.hash_nonneg (bf : BloomFilter) (item : List Nat) (seed : Int) :
    0 ≤ bf._hash item seed :=
  Int.natCast_nonneg _

/-- Every index in `hashIndices` is in range of a bit array of length
`size.toNat`. -/
theorem BloomFilter.hashIndices_lt (bf : BloomFilter) (item : List Nat) (n : Nat)
    (hn : n ∈ bf.hashIndices item) (h : 0 < bf.size) : n < bf.size.toNat := by
  unfold BloomFilter.hashIndices at hn
  obtain ⟨i, _, hi⟩ := List.mem_map.mp hn
  have h1 := bf.hash_lt item (Int.ofNat i) h
  have h2 := bf.hash_nonneg item (Int.ofNat i)
  omega

/-- The state component of the `contains` loop is the receiver. -/
theorem BloomFilter.containsLoop_fst (bf : BloomFilter) (item : List Nat)
    (seeds : List Nat) : (bf.containsLoop item seeds).1 = bf := by
  induction seeds with
  | nil => rfl
  | cons i rest ih =>
    rw [BloomFilter.containsLoop]
    by_cases h : bf.bitArray[(bf._hash item (Int.ofNat i)).toNat]? = some 0
    · rw [if_pos h]
    · rw [if_neg h]
      exact ih

/-- The boolean the `contains` loop returns: `true` exactly when no visited
slot reads the number 0. -/
theorem BloomFilter.containsLoop_snd (bf : BloomFilter) (item : List Nat)
    (seeds : List Nat) :
    (bf.containsLoop item seeds).2 = true ↔
      ∀ i ∈ seeds, bf.bitArray[(bf._hash item (Int.ofNat i)).toNat]? ≠ some 0 := by
  induction seeds with
  | nil => simp [BloomFilter.containsLoop]
  | cons i rest ih =>
    rw [BloomFilter.containsLoop]
    by_cases h : bf.bitArray[(bf._hash item (Int.ofNat i)).toNat]? = some 0
    · rw [if_pos h]
      constructor
      · intro hf
        exact absurd hf (by simp)
      · intro hr
        exact absurd h (hr i (List.mem_cons_self i rest))
    · rw [if_neg h]
      simp only [List.mem_cons]
      constructor
      · intro hl j hj
        rcases hj with hj | hj
        · subst hj; exact h
        · exact ih.mp hl j hj
      · intro hr
        exact ih.mpr fun j hj => hr j (Or.inr hj)

theorem BloomFilter.contains_eq_true_iff (bf : BloomFilter) (item : List Nat) :
    bf.contains item = true ↔
      ∀ i ∈ List.range bf.numHashes.toNat,
        bf.bitArray[(bf._hash item (Int.ofNat i)).toNat]? ≠ some 0 :=
  bf.containsLoop_snd item (List.range bf.numHashes.toNat)

/-- Monotonicity through one `add`: a slot reading 1 keeps reading 1. -/
theorem BloomFilter.add_mono (bf : BloomFilter) (item : List Nat) (n : Nat)
    (h : bf.bitArray[n]? = some 1) : (bf.add item).bitArray[n]? = some 1 := by
  rw [bf.add_eq item]
  exact setOnes_mono _ _ _ h

/-- Monotonicity through any sequence of `add` calls. -/
theorem BloomFilter.addAll_mono (bf : BloomFilter) (items : List (List Nat)) (n : Nat)
    (h : bf.bitArray[n]? = some 1) : (bf.addAll items).bitArray[n]? = some 1 := by
  induction items generalizing bf with
  | nil => exact h
  | cons x rest ih =>
    rw [BloomFilter.addAll_cons]
    exact ih (bf.add x) (bf.add_mono x n h)

/-- After `add item`, every index derived from `item` reads 1 (positive
size and a bit array of matching length keep the writes in bounds). -/
theorem BloomFilter.add_sets (bf : BloomFilter) (item : List Nat) (n : Nat)
    (hn : n ∈ bf.hashIndices item) (hs : 0 < bf.size)
    (hl : bf.bitArray.length = bf.size.toNat) :
    (bf.add item).bitArray[n]? = some 1 := by
  rw [bf.add_eq item]
  exact setOnes_sets _ _ _ hn (hl ▸ bf.hashIndices_lt item n hn hs)

/-- Inversion of a successful constructor call. -/
theorem BloomFilter.construct_ok (size numHashes : Int) (bf : BloomFilter)
    (h : BloomFilter.construct size numHashes = Except.ok bf) :
    bf = ⟨size, numHashes, List.replicate size.toNat 0⟩ := by
  unfold BloomFilter.construct at h
  split at h
  · exact (Except.ok.inj h).symm
  · exact absurd h (by simp)

/-- Setting the same indices twice is the same as setting them once. -/
theorem setOnes_idem (I : List Nat) (arr : List Int) :
    setOnes (setOnes arr I) I = setOnes arr I := by
  apply List.ext_getElem?
  intro n
  rw [setOnes_getElem? I (setOnes arr I) n, setOnes_length]
  by_cases hc : n ∈ I ∧ n < arr.length
  · rw [if_pos hc, setOnes_getElem? I arr n, if_pos hc]
  · rw [if_neg hc]

/-- Two batches of 1-writes commute. -/
theorem setOnes_comm (I J : List Nat) (arr : List Int) :
    setOnes (setOnes arr I) J = setOnes (setOnes arr J) I := by
  apply List.ext_getElem?
  intro n
  rw [setOnes_getElem? J (setOnes arr I) n, setOnes_getElem? I (setOnes arr J) n,
    setOnes_length, setOnes_length, setOnes_getElem? I arr n, setOnes_getElem? J arr n]
  split_ifs <;> rfl

/-- `setOnes` writes nothing but the number 1: an array of 0/1 values stays
an array of 0/1 values. -/
theorem setOnes_bits01 (I : List Nat) (arr : List Int)
    (h : ∀ b ∈ arr, b = 0 ∨ b = 1) : ∀ b ∈ setOnes arr I, b = 0 ∨ b = 1 := by
  intro b hb
  obtain ⟨n, hn⟩ := List.mem_iff_getElem?.mp hb
  rw [setOnes_getElem?] at hn
  by_cases hc : n ∈ I ∧ n < arr.length
  · rw [if_pos hc] at hn
    exact Or.inr (Option.some.inj hn).symm
  · rw [if_neg hc] at hn
    exact h b (List.mem_iff_getElem?.mpr ⟨n, hn⟩)

theorem BloomFilter.add_bits01 (bf : BloomFilter) (item : List Nat)
    (h : ∀ b ∈ bf.bitArray, b = 0 ∨ b = 1) :
    ∀ b ∈ (bf.add item).bitArray, b = 0 ∨ b = 1 := by
  rw [bf.add_eq item]
  exact setOnes_bits01 _ _ h

theorem BloomFilter.addAll_bits01 (bf : BloomFilter) (items : List (List Nat))
    (h : ∀ b ∈ bf.bitArray, b = 0 ∨ b = 1) :
    ∀ b ∈ (bf.addAll items).bitArray, b = 0 ∨ b = 1 := by
  induction items generalizing bf with
  | nil => exact h
  | cons x rest ih =>
    rw [BloomFilter.addAll_cons]
    exact ih (bf.add x) (bf.add_bits01 x h)

/-- Core of the no-false-negative property: once `x` has been added, any
further `add` calls keep `contains x` true. -/
theorem BloomFilter.contains_after_add (bf : BloomFilter) (x : List Nat)
    (post : List (List Nat)) (hs : 0 < bf.size)
    (hl : bf.bitArray.length = bf.size.toNat) :
    ((bf.add x).addAll post).contains x = true := by
  rw [BloomFilter.contains_eq_true_iff]
  intro i hi
  obtain ⟨s2, k2, _⟩ := (bf.add x).addAll_size post
  obtain ⟨sa, ka⟩ := bf.add_size x
  have hsz : ((bf.add x).addAll post).size = bf.size := s2.trans sa
  have hkz : ((bf.add x).addAll post).numHashes = bf.numHashes := k2.trans ka
  have hhash : ((((bf.add x).addAll post))._hash x (Int.ofNat i)).toNat
      = (bf._hash x (Int.ofNat i)).toNat :=
    congrArg Int.toNat (BloomFilter.hash_congr _ bf x (Int.ofNat i) hsz)
  rw [hhash]
  have hmem : (bf._hash x (Int.ofNat i)).toNat ∈ bf.hashIndices x := by
    rw [BloomFilter.hashIndices]
    rw [hkz] at hi
    exact List.mem_map.mpr ⟨i, hi, rfl⟩
  have h1 : (bf.add x).bitArray[(bf._hash x (Int.ofNat i)).toNat]? = some 1 :=
    bf.add_sets x _ hmem hs hl
  rw [(bf.add x).addAll_mono post _ h1]
  simp

/-! ### Claim theorems -/

/-- Claim C2: the code's per-character update `hash = (hash << 5) - hash + char`
followed by `hash = hash & hash` computes, for every 32-bit signed accumulator
value (and in fact for every integer accumulator) exactly the specification's
update `hash = hash * 31 + codepoint` wrapped to 32-bit two's-complement
semantics; consequently the two running-hash functions agree on every
string. -/
theorem hash_refines_spec :
    (∀ (hash : Int) (char : Nat), -2147483648 ≤ hash → hash < 2147483648 →
        hashStep hash char = specHashStep hash char) ∧
      ∀ item : List Nat, stringHash item = specStringHash item :=
  ⟨fun hash char _ _ => hashStep_eq_specHashStep hash char,
    stringHash_eq_specStringHash⟩

/-- Witness for C2 at a concrete negative 32-bit accumulator and a concrete
string. -/
theorem hash_refines_spec_witness :
    (-2147483648 ≤ (-5 : Int) ∧ (-5 : Int) < 2147483648) ∧
      hashStep (-5) 97 = specHashStep (-5) 97 ∧
      stringHash [104, 105] = specStringHash [104, 105] :=
  ⟨⟨by decide, by decide⟩,
    hash_refines_spec.1 (-5) 97 (by decide) (by decide),
    hash_refines_spec.2 [104, 105]⟩

/-- Claim C3: on a filter of positive size, `_hash` produces an index with
`0 ≤ index < size` for every item and every integer seed; hence, whenever the
bit array has the constructed length `size`, every access that `add` and
`contains` perform through `hashIndices` is within bounds. -/
theorem index_bound (bf : BloomFilter) (item : List Nat) (seed : Int)
    (h : 0 < bf.size) :
    0 ≤ bf._hash item seed ∧ bf._hash item seed < bf.size ∧
      (bf.bitArray.length = bf.size.toNat →
        ∀ n ∈ bf.hashIndices item, n < bf.bitArray.length) := by
  refine ⟨bf.hash_nonneg item seed, bf.hash_lt item seed h, ?_⟩
  intro hl n hn
  rw [hl]
  exact bf.hashIndices_lt item n hn h

/-- Witness for C3 on a concrete filter of size 7 with a negative seed. -/
theorem index_bound_witness :
    0 < (BloomFilter.mk 7 2 [0, 0, 0, 0, 0, 0, 0]).size ∧
      (0 ≤ (BloomFilter.mk 7 2 [0, 0, 0, 0, 0, 0, 0])._hash [97, 98] (-4) ∧
        (BloomFilter.mk 7 2 [0, 0, 0, 0, 0, 0, 0])._hash [97, 98] (-4)
          < (BloomFilter.mk 7 2 [0, 0, 0, 0, 0, 0, 0]).size ∧
        ((BloomFilter.mk 7 2 [0, 0, 0, 0, 0, 0, 0]).bitArray.length
            = (BloomFilter.mk 7 2 [0, 0, 0, 0, 0, 0, 0]).size.toNat →
          ∀ n ∈ (BloomFilter.mk 7 2 [0, 0, 0, 0, 0, 0, 0]).hashIndices [97, 98],
            n < (BloomFilter.mk 7 2 [0, 0, 0, 0, 0, 0, 0]).bitArray.length)) :=
  ⟨by decide, index_bound (BloomFilter.mk 7 2 [0, 0, 0, 0, 0, 0, 0]) [97, 98] (-4) (by decide)⟩

/-- Claim C7: `_hash(item, seed)` is a pure function of `(item, seed, size)`:
two filters with the same `size` — whatever their bit arrays, `numHashes`
or history — derive the same index for the same item and seed. -/
theorem hash_deterministic (bf1 bf2 : BloomFilter) (item : List Nat) (seed : Int)
    (h : bf1.size = bf2.size) : bf1._hash item seed = bf2._hash item seed :=
  BloomFilter.hash_congr bf1 bf2 item seed h

/-- Witness for C7: two same-size filters with different bit arrays and
different `numHashes` agree on a concrete index. -/
theorem hash_deterministic_witness :
    (BloomFilter.mk 100 3 [0, 1]).size = (BloomFilter.mk 100 7 []).size ∧
      (BloomFilter.mk 100 3 [0, 1])._hash [97, 112] 2
        = (BloomFilter.mk 100 7 [])._hash [97, 112] 2 :=
  ⟨by decide,
    hash_deterministic (BloomFilter.mk 100 3 [0, 1]) (BloomFilter.mk 100 7 [])
      [97, 112] 2 (by decide)⟩

/-- Claim C1: no false negatives.  On any filter constructed with positive
`size` and positive `numHashes`, after any adds `pre`, then `add x`, then any
further adds `post` (and no parameter mutation, which no operation performs),
`contains x` returns `true`. -/
theorem no_false_negatives (size numHashes : Int) (bf0 : BloomFilter)
    (hok : BloomFilter.construct size numHashes = Except.ok bf0)
    (hs : 0 < size) (hk : 0 < numHashes)
    (pre post : List (List Nat)) (x : List Nat) :
    (((bf0.addAll pre).add x).addAll post).contains x = true := by
  have hbf := BloomFilter.construct_ok size numHashes bf0 hok
  subst hbf
  obtain ⟨s1, _, l1⟩ :=
    BloomFilter.addAll_size ⟨size, numHashes, List.replicate size.toNat 0⟩ pre
  apply BloomFilter.contains_after_add
  · rw [s1]
    exact hs
  · rw [l1, s1]
    simp

/-- Witness for C1: a concrete size-5 filter, with another item added before
and after `x`. -/
theorem no_false_negatives_witness :
    BloomFilter.construct 5 2 = Except.ok (BloomFilter.mk 5 2 [0, 0, 0, 0, 0]) ∧
      0 < (5 : Int) ∧ 0 < (2 : Int) ∧
      ((((BloomFilter.mk 5 2 [0, 0, 0, 0, 0]).addAll [[97]]).add [99]).addAll
          [[98]]).contains [99] = true :=
  ⟨rfl, by decide, by decide,
    no_false_negatives 5 2 (BloomFilter.mk 5 2 [0, 0, 0, 0, 0]) rfl (by decide)
      (by decide) [[97]] [[98]] [99]⟩

/-- Claim C4: bit monotonicity.  After construction and any sequence `ops` of
`add` calls (a `contains` call, whose loop body performs no write, leaves the
state untouched — see `BloomFilter.containsLoop_fst`), every slot of the bit
array holds 0 or 1, and a slot that reads 1 still reads 1 after any further
sequence `later` of operations: nothing ever writes 0. -/
theorem bit_monotonicity (size numHashes : Int) (bf0 : BloomFilter)
    (hok : BloomFilter.construct size numHashes = Except.ok bf0)
    (ops later : List (List Nat)) (n : Nat) :
    (∀ b ∈ (bf0.addAll ops).bitArray, b = 0 ∨ b = 1) ∧
      ((bf0.addAll ops).bitArray[n]? = some 1 →
        ((bf0.addAll ops).addAll later).bitArray[n]? = some 1) := by
  have hbf := BloomFilter.construct_ok size numHashes bf0 hok
  subst hbf
  constructor
  · apply BloomFilter.addAll_bits01
    intro b hb
    exact Or.inl (List.eq_of_mem_replicate hb)
  · intro h1
    exact BloomFilter.addAll_mono _ later n h1

/-- Witness for C4 on a size-1 filter where the single slot is set by the
first add and survives a later add. -/
theorem bit_monotonicity_witness :
    BloomFilter.construct 1 1 = Except.ok (BloomFilter.mk 1 1 [0]) ∧
      ((∀ b ∈ ((BloomFilter.mk 1 1 [0]).addAll [[97]]).bitArray, b = 0 ∨ b = 1) ∧
        (((BloomFilter.mk 1 1 [0]).addAll [[97]]).bitArray[0]? = some 1 →
          (((BloomFilter.mk 1 1 [0]).addAll [[97]]).addAll [[98]]).bitArray[0]?
            = some 1)) :=
  ⟨rfl, bit_monotonicity 1 1 (BloomFilter.mk 1 1 [0]) rfl [[97]] [[98]] 0⟩

/-- Claim C5: a freshly constructed filter with positive size and at least one
hash pass answers `false` to every `contains` query: seed 0 reads a slot of
the all-zero array, and the loop short-circuits to `false`. -/
theorem empty_filter_contains_false (size numHashes : Int) (bf0 : BloomFilter)
    (hok : BloomFilter.construct size numHashes = Except.ok bf0)
    (hs : 0 < size) (hk : 1 ≤ numHashes) (item : List Nat) :
    bf0.contains item = false := by
  have hbf := BloomFilter.construct_ok size numHashes bf0 hok
  subst hbf
  have hnot : ¬ ((⟨size, numHashes, List.replicate size.toNat 0⟩ : BloomFilter).contains
      item = true) := by
    rw [BloomFilter.contains_eq_true_iff]
    intro hall
    have h0 : (0 : Nat) ∈ List.range
        (⟨size, numHashes, List.replicate size.toNat 0⟩ : BloomFilter).numHashes.toNat := by
      apply List.mem_range.mpr
      show 0 < numHashes.toNat
      omega
    apply hall 0 h0
    have hlt : (⟨size, numHashes, List.replicate size.toNat 0⟩ : BloomFilter)._hash
        item (Int.ofNat 0) < size :=
      BloomFilter.hash_lt _ item (Int.ofNat 0) hs
    have hnn := (⟨size, numHashes, List.replicate size.toNat 0⟩ : BloomFilter).hash_nonneg
      item (Int.ofNat 0)
    show (List.replicate size.toNat (0 : Int))[((⟨size, numHashes,
        List.replicate size.toNat 0⟩ : BloomFilter)._hash item (Int.ofNat 0)).toNat]?
      = some 0
    rw [List.getElem?_replicate, if_pos (by omega)]
  cases hb : (⟨size, numHashes, List.replicate size.toNat 0⟩ : BloomFilter).contains item
  · rfl
  · exact absurd hb hnot

/-- Witness for C5: the fresh size-3 filter rejects a concrete item. -/
theorem empty_filter_contains_false_witness :
    BloomFilter.construct 3 2 = Except.ok (BloomFilter.mk 3 2 [0, 0, 0]) ∧
      0 < (3 : Int) ∧ 1 ≤ (2 : Int) ∧
      (BloomFilter.mk 3 2 [0, 0, 0]).contains [103] = false :=
  ⟨rfl, by decide, by decide,
    empty_filter_contains_false 3 2 (BloomFilter.mk 3 2 [0, 0, 0]) rfl (by decide)
      (by decide) [103]⟩

/-- Claim C6 fails as stated: at `size = 0` (which is `≤ 0`) the constructor
does not reject — it returns a usable instance with an empty bit array, and
later operations head into the undefined `hash % 0` behavior.  The source
performs no validation of its own. -/
theorem construct_zero_size_accepted :
    BloomFilter.construct 0 3 = Except.ok (BloomFilter.mk 0 3 []) := rfl

/-- Claim C6 (amended): the constructor itself validates nothing.  A call
with `size < 0` does fail with a `RangeError` — thrown by `new Array(size)`,
not by an argument check — while a call with `size = 0` succeeds and returns
a filter instance with an empty bit array. -/
theorem construct_validation (size numHashes : Int) (hneg : size < 0) :
    BloomFilter.construct size numHashes = Except.error JsError.rangeError ∧
      BloomFilter.construct 0 numHashes = Except.ok (BloomFilter.mk 0 numHashes []) := by
  constructor
  · unfold BloomFilter.construct
    rw [if_neg (by omega)]
  · unfold BloomFilter.construct
    rw [if_pos (by decide)]
    rfl

/-- Witness for the amended C6 at `size = -1`. -/
theorem construct_validation_witness :
    (-1 : Int) < 0 ∧
      (BloomFilter.construct (-1) 3 = Except.error JsError.rangeError ∧
        BloomFilter.construct 0 3 = Except.ok (BloomFilter.mk 0 3 [])) :=
  ⟨by decide, construct_validation (-1) 3 (by decide)⟩

/-- Claim C8: frame.  `add` changes neither `size` nor `numHashes` and writes
no bit-array slot outside the indices derived from its item; a `contains`
call returns with the receiver state it was entered with (its loop performs
no write). -/
theorem frame_properties (bf : BloomFilter) (item : List Nat) :
    (bf.add item).size = bf.size ∧ (bf.add item).numHashes = bf.numHashes ∧
      (∀ n : Nat, n ∉ bf.hashIndices item →
        (bf.add item).bitArray[n]? = bf.bitArray[n]?) ∧
      (bf.containsCall item).1 = bf := by
  refine ⟨(bf.add_size item).1, (bf.add_size item).2, ?_,
    bf.containsLoop_fst item (List.range bf.numHashes.toNat)⟩
  intro n hn
  rw [bf.add_eq item]
  show (setOnes bf.bitArray (bf.hashIndices item))[n]? = bf.bitArray[n]?
  rw [setOnes_getElem?, if_neg (fun hc => hn hc.1)]

/-- Witness for C8 on a concrete filter and item. -/
theorem frame_properties_witness :
    ((BloomFilter.mk 3 1 [0, 0, 0]).add [97]).size = (BloomFilter.mk 3 1 [0, 0, 0]).size ∧
      ((BloomFilter.mk 3 1 [0, 0, 0]).add [97]).numHashes
        = (BloomFilter.mk 3 1 [0, 0, 0]).numHashes ∧
      (∀ n : Nat, n ∉ (BloomFilter.mk 3 1 [0, 0, 0]).hashIndices [97] →
        ((BloomFilter.mk 3 1 [0, 0, 0]).add [97]).bitArray[n]?
          = (BloomFilter.mk 3 1 [0, 0, 0]).bitArray[n]?) ∧
      ((BloomFilter.mk 3 1 [0, 0, 0]).containsCall [97]).1 = BloomFilter.mk 3 1 [0, 0, 0] :=
  frame_properties (BloomFilter.mk 3 1 [0, 0, 0]) [97]

/-- Claim C9: `add` is idempotent and adds commute — adding `x` twice yields
the same state as adding it once, and the order of adding `x` and `y` does
not matter. -/
theorem add_idempotent_commutative (bf : BloomFilter) (x y : List Nat)
    (hs : 0 < bf.size) (hk : 1 ≤ bf.numHashes) :
    (bf.add x).add x = bf.add x ∧ (bf.add x).add y = (bf.add y).add x := by
  obtain ⟨sx, kx⟩ := bf.add_size x
  obtain ⟨sy, ky⟩ := bf.add_size y
  constructor
  · apply BloomFilter.ext
    · exact ((bf.add x).add_size x).1
    · exact ((bf.add x).add_size x).2
    · have e1 : ((bf.add x).add x).bitArray
          = setOnes (bf.add x).bitArray ((bf.add x).hashIndices x) := by
        rw [(bf.add x).add_eq x]
      have e2 : (bf.add x).bitArray = setOnes bf.bitArray (bf.hashIndices x) := by
        rw [bf.add_eq x]
      have hIx : (bf.add x).hashIndices x = bf.hashIndices x :=
        BloomFilter.hashIndices_congr _ _ x sx kx
      rw [e1, hIx, e2, setOnes_idem]
  · apply BloomFilter.ext
    · exact (((bf.add x).add_size y).1.trans sx).trans
        ((((bf.add y).add_size x).1.trans sy).symm)
    · exact (((bf.add x).add_size y).2.trans kx).trans
        ((((bf.add y).add_size x).2.trans ky).symm)
    · have e1 : ((bf.add x).add y).bitArray
          = setOnes (bf.add x).bitArray ((bf.add x).hashIndices y) := by
        rw [(bf.add x).add_eq y]
      have e2 : ((bf.add y).add x).bitArray
          = setOnes (bf.add y).bitArray ((bf.add y).hashIndices x) := by
        rw [(bf.add y).add_eq x]
      have e3 : (bf.add x).bitArray = setOnes bf.bitArray (bf.hashIndices x) := by
        rw [bf.add_eq x]
      have e4 : (bf.add y).bitArray = setOnes bf.bitArray (bf.hashIndices y) := by
        rw [bf.add_eq y]
      have hIy : (bf.add x).hashIndices y = bf.hashIndices y :=
        BloomFilter.hashIndices_congr _ _ y sx kx
      have hIx : (bf.add y).hashIndices x = bf.hashIndices x :=
        BloomFilter.hashIndices_congr _ _ x sy ky
      rw [e1, hIy, e3, e2, hIx, e4, setOnes_comm]

/-- Witness for C9 with two concrete items on a size-5 filter. -/
theorem add_idempotent_commutative_witness :
    0 < (BloomFilter.mk 5 2 [0, 0, 0, 0, 0]).size ∧
      1 ≤ (BloomFilter.mk 5 2 [0, 0, 0, 0, 0]).numHashes ∧
      (((BloomFilter.mk 5 2 [0, 0, 0, 0, 0]).add [97]).add [97]
          = (BloomFilter.mk 5 2 [0, 0, 0, 0, 0]).add [97] ∧
        ((BloomFilter.mk 5 2 [0, 0, 0, 0, 0]).add [97]).add [98]
          = ((BloomFilter.mk 5 2 [0, 0, 0, 0, 0]).add [98]).add [97]) :=
  ⟨by decide, by decide,
    add_idempotent_commutative (BloomFilter.mk 5 2 [0, 0, 0, 0, 0]) [97] [98]
      (by decide) (by decide)⟩

/-- Claim C10: a filter with `numHashes = 0` is accepted unchecked by the
constructor; on any such filter both loops run zero times, so `add` is a
no-op and `contains` vacuously returns `true` for every item — already on
the freshly constructed filter, contradicting definite absence. -/
theorem degenerate_zero_hashes (size : Int) (bf0 bf : BloomFilter)
    (hok : BloomFilter.construct size 0 = Except.ok bf0)
    (hk : bf.numHashes = 0) (item : List Nat) :
    bf0.numHashes = 0 ∧ bf.add item = bf ∧ bf.contains item = true := by
  refine ⟨?_, ?_, ?_⟩
  · rw [BloomFilter.construct_ok size 0 bf0 hok]
  · show (List.range bf.numHashes.toNat).foldl (BloomFilter.addStep item) bf = bf
    rw [hk]
    rfl
  · show (bf.containsLoop item (List.range bf.numHashes.toNat)).2 = true
    rw [hk]
    rfl

/-- Witness for C10: the fresh degenerate filter of size 4 accepts a never
added item. -/
theorem degenerate_zero_hashes_witness :
    BloomFilter.construct 4 0 = Except.ok (BloomFilter.mk 4 0 [0, 0, 0, 0]) ∧
      (BloomFilter.mk 4 0 [0, 0, 0, 0]).numHashes = 0 ∧
      ((BloomFilter.mk 4 0 [0, 0, 0, 0]).numHashes = 0 ∧
        (BloomFilter.mk 4 0 [0, 0, 0, 0]).add [99] = BloomFilter.mk 4 0 [0, 0, 0, 0] ∧
        (BloomFilter.mk 4 0 [0, 0, 0, 0]).contains [99] = true) :=
  ⟨rfl, rfl,
    degenerate_zero_hashes 4 (BloomFilter.mk 4 0 [0, 0, 0, 0])
      (BloomFilter.mk 4 0 [0, 0, 0, 0]) rfl rfl [99]⟩
